import Mathlib

/-
Shallow embedding of `pentomino.py` (genetic algorithm for pentomino
puzzles) and proofs of the specification claims about it.

Bitstrings are modelled as `List Bool` (Python strings of '0'/'1').
Randomness is made explicit: random draws become parameters (the drawn
value `x` for selection, the cut index `loc` for crossover, and a
per-position flip oracle for mutation).  Python floats become `ℚ`.
-/

namespace Pent

/-- A grid node: coordinates and identifier value, as in the Python
`Node` class.  Python `__eq__` compares the triple `(r, c, value)`,
which is exactly structural equality here.  The Python `neighbors`
back-reference list is not stored; it is recomputed from the grid by
`nbrs` below, exactly as `set_population` builds it. -/
structure Node where
  r : Nat
  c : Nat
  value : List Bool
deriving DecidableEq, Repr

/-- The identifier chunk a cell `(r, c)` receives when decoding
bitstring `b` with `m` columns and chunk width `w`: the Python loop in
`set_population` slices `bstring[i:i+bsize]` with the pointer `i` equal
to `(r*m + c)*w` at cell `(r, c)` (row-major order). -/
def chunkAt (b : List Bool) (m w r c : Nat) : List Bool :=
  (b.drop ((r * m + c) * w)).take w

/-- Decoding one bitstring into a grid of `Node`s: the population-build
loop of `Pentomino.set_population` (and the identical loop in
`__init__`), for a single bitstring. `n` rows of `m` cells each, cell
`(r, c)` holding the `w`-bit chunk at its row-major position. -/
def decodeGrid (b : List Bool) (m n w : Nat) : List (List Node) :=
  (List.range n).map (fun r =>
    (List.range m).map (fun c => Node.mk r c (chunkAt b m w r c)))

/-- Re-deriving the flat identifier sequence from a grid: concatenate
every cell's value in row-major order. -/
def encode (grid : List (List Node)) : List Bool :=
  (grid.flatten.map Node.value).flatten

/-- Cell access with the bounds check of `Pentomino.get_node`, for a
single grid: `row >= 0 and col >= 0 and row < n and col < m` guards the
list indexing; out of bounds yields `none` (Python `None`). -/
def getCell (grid : List (List Node)) (m n : Nat) (row col : Int) : Option Node :=
  if 0 ≤ row ∧ 0 ≤ col ∧ row < (n : Int) ∧ col < (m : Int) then
    (grid[row.toNat]?).bind (fun rowL => rowL[col.toNat]?)
  else none

/-- `Pentomino.get_node(idx, row, col)`: the same bounds check, then
`self.population[idx][row][col]`. -/
def get_node (pop : List (List (List Node))) (m n : Nat) (idx : Nat)
    (row col : Int) : Option Node :=
  if 0 ≤ row ∧ 0 ≤ col ∧ row < (n : Int) ∧ col < (m : Int) then
    (pop[idx]?).bind (fun g => (g[row.toNat]?).bind (fun rowL => rowL[col.toNat]?))
  else none

/-- `Pentomino.set_population(bitstrings)`: decode every bitstring into
its grid.  (The neighbour lists the Python code then stores on each
`Node` are recomputed on demand by `nbrs`.) -/
def set_population (bitstrings : List (List Bool)) (m n w : Nat) :
    List (List (List Node)) :=
  bitstrings.map (fun b => decodeGrid b m n w)

/-- Helper for the neighbour-building loop: the Python code appends the
neighbouring node exactly when it is not `None` and its value equals the
centre cell's value. -/
def sameValued (v : List Bool) (o : Option Node) : List Node :=
  match o with
  | some x => if x.value = v then [x] else []
  | none => []

/-- The neighbour list of the cell at `(r, c)`, as built by the second
loop of `set_population`: the four candidates `above`, `below`, `left`,
`right` (in that order), kept when present and carrying the same value
as the cell itself. -/
def nbrs (grid : List (List Node)) (m n : Nat) (r c : Nat) : List Node :=
  match getCell grid m n r c with
  | none => []
  | some node =>
      sameValued node.value (getCell grid m n ((r : Int) - 1) (c : Int))
        ++ sameValued node.value (getCell grid m n ((r : Int) + 1) (c : Int))
        ++ sameValued node.value (getCell grid m n (r : Int) ((c : Int) - 1))
        ++ sameValued node.value (getCell grid m n (r : Int) ((c : Int) + 1))

/-- Four-adjacency of two cells: same row and columns differing by one,
or same column and rows differing by one. -/
def adjacent (x y : Node) : Prop :=
  (x.r = y.r ∧ (x.c + 1 = y.c ∨ y.c + 1 = x.c)) ∨
    (x.c = y.c ∧ (x.r + 1 = y.r ∨ y.r + 1 = x.r))

instance (x y : Node) : Decidable (adjacent x y) := by
  unfold adjacent
  infer_instance

/-- `Pentomino.crossover`: with cut index `loc` (Python draws
`random.randint(0, len(mom))`), the two children are
`mom[0:loc] + dad[loc:]` and `dad[0:loc] + mom[loc:]`. -/
def crossover (mom dad : List Bool) (loc : Nat) : List (List Bool) :=
  [mom.take loc ++ dad.drop loc, dad.take loc ++ mom.drop loc]

/-- The `while sc < x` accumulation loop of `Pentomino.selection`, with
the scores still to be consumed made explicit.  Each round adds
`scores[score]` to the running sum and advances `score` only while the
sum stays below `x`; reading past the end of the list (Python
`IndexError`) is `none`. -/
def selLoop (x : ℚ) (rest : List ℚ) (sc : ℚ) (idx : Nat) : Option Nat :=
  if sc < x then
    match rest with
    | [] => none
    | s :: rest' =>
        if sc + s < x then selLoop x rest' (sc + s) (idx + 1) else some idx
  else some idx

/-- One roulette-wheel draw of `Pentomino.selection`: the drawn value is
`x = random.random() * max_score`; the loop starts with `sc = 0`,
`score = 0`. -/
def selectionIndex (scores : List ℚ) (x : ℚ) : Option Nat :=
  selLoop x scores 0 0

/-- The net effect on one bitstring of the inner loop of
`Pentomino.mutation`: position `i` is rebuilt as
`b[:i] + flipped + b[i+1:]` whenever the draw at `i` succeeds, i.e.
every position is independently flipped or kept. -/
def mutateLocalAux (flip : Nat → Bool) : Nat → List Bool → List Bool
  | _, [] => []
  | i, x :: xs => (if flip i then !x else x) :: mutateLocalAux flip (i + 1) xs

/-- The flipped string the body of `Pentomino.mutation` computes for one
bitstring `b` (the local variable `b` after the inner loop). -/
def mutateLocal (b : List Bool) (flip : Nat → Bool) : List Bool :=
  mutateLocalAux flip 0 b

/-- `Pentomino.mutation(mutation_rate)`: the loop rebinds the local
variable `b` to the flipped string but never stores it back into
`self.bitstrings`, so the stored collection is returned unchanged.
`flip j i` is the oracle for `random.random() < mutation_rate` at
bitstring `j`, position `i` (constantly `false` when the rate is `0`,
constantly `true` when the rate is `1`, since `random.random()` lies in
`[0, 1)`). -/
def mutation (bitstrings : List (List Bool)) (_flip : Nat → Nat → Bool) :
    List (List Bool) :=
  bitstrings

/-- One pass of the inner `for n in neighbors` loop of `Pentomino.bfs`:
every neighbour not yet visited is appended to the visited list and the
queue, and the counter is incremented.  Membership is Python `in`, i.e.
`Node.__eq__` (the structural triple). -/
def enqueueNew : List Node → List Node → Nat → List Node →
    List Node × List Node × Nat
  | visited, queue, count, [] => (visited, queue, count)
  | visited, queue, count, x :: xs =>
      if x ∈ visited then enqueueNew visited queue count xs
      else enqueueNew (visited ++ [x]) (queue ++ [x]) (count + 1) xs

/-- The `while not q.empty()` loop of `Pentomino.bfs`, with explicit
fuel for termination.  Each round dequeues one node and feeds its
neighbour list (recomputed from the grid by `nbrs`, exactly the list the
Python code stored on the node) through `enqueueNew`. -/
def bfsAux (grid : List (List Node)) (m n : Nat) :
    Nat → List Node → List Node → Nat → Nat
  | 0, _, _, count => count
  | _ + 1, [], _, count => count
  | fuel + 1, s :: rest, visited, count =>
      match enqueueNew visited rest count (nbrs grid m n s.r s.c) with
      | (visited', queue', count') => bfsAux grid m n fuel queue' visited' count'

/-- `Pentomino.bfs(node)`: visited list and queue start as `[node]`,
the count as `1`.  The fuel `2*m*n + 1` dominates the loop measure
`queue.length + 2*(m*n - visited.length)` (proved below), so it never
runs out on a decoded grid. -/
def bfs (grid : List (List Node)) (m n : Nat) (node : Node) : Nat :=
  bfsAux grid m n (2 * (m * n) + 1) [node] [node] 1

/-- Reachability through the linked (`neighbors`) relation: the
reflexive-transitive closure of `nbrs` from the start node. -/
inductive Reachable (grid : List (List Node)) (m n : Nat) (start : Node) :
    Node → Prop
  | refl : Reachable grid m n start start
  | step {x y : Node} : Reachable grid m n start x →
      y ∈ nbrs grid m n x.r x.c → Reachable grid m n start y

/-- Python dict lookup on an insertion-ordered association list (the
fitness code keys `connected_counts` / `total_counts` by `node.value`). -/
def dictGet : List (List Bool × Nat) → List Bool → Option Nat
  | [], _ => none
  | (k, x) :: rest, v => if k = v then some x else dictGet rest v

/-- Python dict assignment `d[v] = x`: overwrite in place if the key is
present (keeping insertion order), otherwise append. -/
def dictSet : List (List Bool × Nat) → List Bool → Nat → List (List Bool × Nat)
  | [], v, x => [(v, x)]
  | (k, y) :: rest, v, x =>
      if k = v then (k, x) :: rest else (k, y) :: dictSet rest v x

/-- The `connected_counts` update of `Pentomino.fitness`: keep the count
whose deviation `abs(count - 5)` is strictly smallest, first write wins
ties. -/
def updateCC (cc : List (List Bool × Nat)) (v : List Bool) (count : Nat) :
    List (List Bool × Nat) :=
  match dictGet cc v with
  | some old =>
      if ((count : ℤ) - 5).natAbs < ((old : ℤ) - 5).natAbs then dictSet cc v count
      else cc
  | none => dictSet cc v count

/-- The `total_counts` update of `Pentomino.fitness`: increment, or
insert `1`. -/
def updateTC (tc : List (List Bool × Nat)) (v : List Bool) :
    List (List Bool × Nat) :=
  match dictGet tc v with
  | some old => dictSet tc v (old + 1)
  | none => dictSet tc v 1

/-- The two dictionaries `Pentomino.fitness` accumulates for one
candidate, walking the grid in row-major order (`r` outer, `c` inner)
and running `bfs` from every cell. -/
def countsFor (grid : List (List Node)) (m n : Nat) :
    List (List Bool × Nat) × List (List Bool × Nat) :=
  grid.flatten.foldl
    (fun p node => (updateCC p.1 node.value (bfs grid m n node), updateTC p.2 node.value))
    ([], [])

/-- The per-identifier summand `1 - abs(5 - x)/5` (float arithmetic in
Python, exact rationals here). -/
def term (x : Nat) : ℚ :=
  1 - |(5 : ℚ) - (x : ℚ)| / 5

/-- The connectivity average `avgc = smc / len(connected_counts)`. -/
def connTerm (grid : List (List Node)) (m n : Nat) : ℚ :=
  (((countsFor grid m n).1.map (fun p => term p.2)).sum) / ((countsFor grid m n).1.length : ℚ)

/-- The count average `avgt = smt / len(total_counts)`. -/
def cntTerm (grid : List (List Node)) (m n : Nat) : ℚ :=
  (((countsFor grid m n).2.map (fun p => term p.2)).sum) / ((countsFor grid m n).2.length : ℚ)

/-- The fitness score of one candidate: `avgc + penalty * avgt`. -/
def fitnessOne (grid : List (List Node)) (m n : Nat) (penalty : ℚ) : ℚ :=
  connTerm grid m n + penalty * cntTerm grid m n

/-- Splitting a bitstring into consecutive `bitsize`-bit chunks: the
`while k < len(bitstring)` loops of `Pentomino.print_pentomino`. -/
def chunksList (w : Nat) (b : List Bool) : List (List Bool) :=
  if h : w = 0 ∨ b = [] then [] else b.take w :: chunksList w (b.drop w)
termination_by b.length
decreasing_by
  simp only [not_or] at h
  have hb : 0 < b.length := List.length_pos.2 h.2
  have hw : 0 < w := Nat.pos_of_ne_zero h.1
  simpa using Nat.sub_lt hb hw

/-- The `pents` list of `print_pentomino`: distinct chunk values in
first-encounter order. -/
def pentsOf (b : List Bool) (w : Nat) : List (List Bool) :=
  (chunksList w b).foldl (fun acc x => if x ∈ acc then acc else acc ++ [x]) []

/-- Python `list.index` on the `pents` list (total here; every chunk is
in `pents` by construction). -/
def indexIn (v : List Bool) : List (List Bool) → Nat
  | [] => 0
  | x :: xs => if x = v then 0 else indexIn v xs + 1

/-- The sequence of glyph-alphabet indices `pents.index(idx)` that
`print_pentomino` uses to subscript `self.reps` (which holds 8 glyphs). -/
def glyphIndices (b : List Bool) (w : Nat) : List Nat :=
  (chunksList w b).map (fun ch => indexIn ch (pentsOf b w))

/-- Safety predicate for the renderer: every lookup into the 8-glyph
alphabet `self.reps` stays in bounds. -/
def glyphsInBounds (b : List Bool) (w : Nat) : Prop :=
  ∀ i ∈ glyphIndices b w, i < 8

instance (b : List Bool) (w : Nat) : Decidable (glyphsInBounds b w) :=
  List.decidableBAll _ _

/-- C7: for every pair of equal-length parent bitstrings and every cut
index `p` in `[0, len]`, crossover produces exactly two children,
`child1 = mom[0:p] + dad[p:]` and `child2 = dad[0:p] + mom[p:]`, and
both children have length equal to the parents' common length. -/
theorem crossover_spec (mom dad : List Bool) (p : Nat)
    (hlen : mom.length = dad.length) (hp : p ≤ mom.length) :
    (crossover mom dad p).length = 2 ∧
      crossover mom dad p = [mom.take p ++ dad.drop p, dad.take p ++ mom.drop p] ∧
      ∀ child ∈ crossover mom dad p, child.length = mom.length := by
  refine ⟨rfl, rfl, ?_⟩
  intro child hchild
  simp only [crossover, List.mem_cons, List.mem_singleton, List.not_mem_nil, or_false] at hchild
  rcases hchild with h | h <;> subst h <;>
    simp only [List.length_append, List.length_take, List.length_drop] <;> omega

/-- Witness for C7 at `mom = [1,0]`, `dad = [0,1]`, `p = 1`. -/
theorem crossover_spec_witness :
    ([true, false] : List Bool).length = ([false, true] : List Bool).length ∧
      1 ≤ ([true, false] : List Bool).length ∧
      ((crossover [true, false] [false, true] 1).length = 2 ∧
        crossover [true, false] [false, true] 1 =
          [([true, false] : List Bool).take 1 ++ ([false, true] : List Bool).drop 1,
            ([false, true] : List Bool).take 1 ++ ([true, false] : List Bool).drop 1] ∧
        ∀ child ∈ crossover [true, false] [false, true] 1,
          child.length = ([true, false] : List Bool).length) :=
  ⟨by decide, by decide, crossover_spec [true, false] [false, true] 1 (by decide) (by decide)⟩

/-- C1: evidence of the mutation write-back defect.  With the flip
oracle constantly `true` (mutation rate `1`, since `random.random() < 1`
always holds), the flipped string the loop body computes is the bitwise
complement, but the stored bitstring collection is returned unchanged —
`mutation` never writes the flipped string back, so the stored
bitstring `"0"` does not become its complement `"1"` as the claim
requires. -/
theorem mutation_rate_one_noop :
    mutation [[false]] (fun _ _ => true) = [[false]] ∧
      mutateLocal [false] (fun _ => true) = [true] ∧
      ([[false]] : List (List Bool)) ≠ [[true]] := by
  refine ⟨rfl, rfl, by decide⟩

/-- C8 counterexample: with all scores negative (total fitness
non-positive) and a drawn value `x = random.random() * max_score ≤ 0`,
the accumulation loop never runs and `selection` silently returns the
default index `0` — the same index for unrelated score lists — instead
of an explicit fallback or a fail-fast error. -/
theorem selection_degenerate_counterexample :
    ((-1 : ℚ) + -1 ≤ 0) ∧
      selectionIndex [(-1 : ℚ), -1] (-(1 / 2)) = some 0 ∧
      selectionIndex [(-5 : ℚ), -7] (-(1 / 2)) = some 0 := by
  refine ⟨by norm_num, by norm_num [selectionIndex, selLoop], by norm_num [selectionIndex, selLoop]⟩

/-- C8 (amended): when the drawn value `x` is non-positive (as happens
whenever the total fitness is non-positive, since
`x = random.random() * max_score`), the accumulation loop of
`selection` never executes and the draw silently returns index `0` for
each parent; it does not divide by zero, loop forever, or fail with an
error. -/
theorem selection_degenerate_returns_zero (scores : List ℚ) (x : ℚ)
    (hx : x ≤ 0) :
    selectionIndex scores x = some 0 := by
  have h0 : ¬ ((0 : ℚ) < x) := not_lt.2 hx
  rw [selectionIndex, selLoop.eq_def, if_neg h0]

/-- Witness for the amended C8 at `scores = [-3, 2]`, `x = -1`. -/
theorem selection_degenerate_returns_zero_witness :
    (-1 : ℚ) ≤ 0 ∧ selectionIndex [(-3 : ℚ), 2] (-1) = some 0 :=
  ⟨by norm_num, selection_degenerate_returns_zero [(-3 : ℚ), 2] (-1) (by norm_num)⟩

/-- The accumulation loop of `selection`, characterised: started below
`x` with enough total mass remaining, it stops at the first position
whose running sum reaches `x`. -/
theorem selLoop_spec (x : ℚ) : ∀ (rest : List ℚ) (sc : ℚ) (idx : Nat),
    sc < x → x ≤ sc + rest.sum →
    ∃ j, selLoop x rest sc idx = some (idx + j) ∧ j < rest.length ∧
      x ≤ sc + (rest.take (j + 1)).sum ∧
      ∀ j', j' < j → sc + (rest.take (j' + 1)).sum < x := by
  intro rest
  induction rest with
  | nil =>
      intro sc idx hlt hle
      simp only [List.sum_nil, add_zero] at hle
      exact absurd hle (not_le.2 hlt)
  | cons s rest' ih =>
      intro sc idx hlt hle
      by_cases hstep : sc + s < x
      · have hle' : x ≤ (sc + s) + rest'.sum := by
          simp only [List.sum_cons] at hle; linarith
        obtain ⟨j', hrun, hjlen, hreach, hmin⟩ := ih (sc + s) (idx + 1) hstep hle'
        refine ⟨j' + 1, ?_, ?_, ?_, ?_⟩
        · rw [selLoop.eq_def]
          simp only [if_pos hlt, if_pos hstep]
          rw [hrun]
          congr 1
          omega
        · simpa [Nat.succ_lt_succ_iff] using hjlen
        · simpa [List.take_cons, List.sum_cons, add_assoc] using hreach
        · intro j'' hj''
          match j'' with
          | 0 => simpa using hstep
          | Nat.succ k =>
              have hk : k < j' := by omega
              have := hmin k hk
              simpa [List.take_cons, List.sum_cons, add_assoc] using this
      · refine ⟨0, ?_, by simp, ?_, by omega⟩
        · rw [selLoop.eq_def, if_pos hlt]
          show (if sc + s < x then selLoop x rest' (sc + s) (idx + 1) else some idx) =
            some (idx + 0)
          rw [if_neg hstep]
          rfl
        · have hxs := not_lt.1 hstep
          simpa using hxs

/-- C6: for every score sequence whose entries are all positive with
positive total, and every drawn value `x` in `(0, total]`, selection
returns the smallest index `i` such that the running sum
`scores[0] + ... + scores[i]` reaches or exceeds `x`; in particular the
returned index is within the bounds of the score sequence. -/
theorem selection_spec (scores : List ℚ) (x : ℚ)
    (_hpos : ∀ s ∈ scores, 0 < s) (_htot : 0 < scores.sum)
    (hx0 : 0 < x) (hxle : x ≤ scores.sum) :
    ∃ i, selectionIndex scores x = some i ∧ i < scores.length ∧
      x ≤ (scores.take (i + 1)).sum ∧
      ∀ j, j < i → (scores.take (j + 1)).sum < x := by
  have hle : x ≤ (0 : ℚ) + scores.sum := by simpa using hxle
  obtain ⟨j, hrun, hjlen, hreach, hmin⟩ := selLoop_spec x scores 0 0 hx0 hle
  refine ⟨j, ?_, hjlen, by simpa using hreach, ?_⟩
  · simpa [selectionIndex] using hrun
  · intro j' hj'
    have := hmin j' hj'
    simpa using this

/-- Witness for C6 at `scores = [1, 2]`, `x = 2`. -/
theorem selection_spec_witness :
    (∀ s ∈ [(1 : ℚ), 2], 0 < s) ∧ (0 : ℚ) < [(1 : ℚ), 2].sum ∧
      (0 : ℚ) < 2 ∧ (2 : ℚ) ≤ [(1 : ℚ), 2].sum ∧
      (∃ i, selectionIndex [(1 : ℚ), 2] 2 = some i ∧
        i < ([(1 : ℚ), 2]).length ∧
        (2 : ℚ) ≤ (([(1 : ℚ), 2]).take (i + 1)).sum ∧
        ∀ j, j < i → (([(1 : ℚ), 2]).take (j + 1)).sum < 2) :=
  ⟨by norm_num, by norm_num, by norm_num, by norm_num,
    selection_spec [(1 : ℚ), 2] 2 (by norm_num) (by norm_num) (by norm_num) (by norm_num)⟩

/-- In-bounds cell access on a decoded grid yields the node with the
queried coordinates and the chunk at its row-major position. -/
theorem getCell_decodeGrid (b : List Bool) (m n w r c : Nat) (hr : r < n) (hc : c < m) :
    getCell (decodeGrid b m n w) m n (r : Int) (c : Int) =
      some (Node.mk r c (chunkAt b m w r c)) := by
  have hcond : 0 ≤ (r : Int) ∧ 0 ≤ (c : Int) ∧ (r : Int) < (n : Int) ∧ (c : Int) < (m : Int) := by
    refine ⟨Int.ofNat_nonneg r, Int.ofNat_nonneg c, ?_, ?_⟩ <;> exact_mod_cast ‹_›
  rw [getCell, if_pos hcond]
  simp [decodeGrid, List.getElem?_map, List.getElem?_range, hr, hc]

/-- Concatenating the first `k` chunks of width `w` of `b` recovers the
first `k*w` bits. -/
theorem rowJoin (w : Nat) : ∀ (k : Nat) (b : List Bool), k * w ≤ b.length →
    (((List.range k).map (fun i => (b.drop (i * w)).take w)).flatten) = b.take (k * w) := by
  intro k
  induction k with
  | zero => intro b _; simp
  | succ k ih =>
      intro b hlen
      rw [List.range_succ_eq_map]
      simp only [List.map_cons, List.map_map, List.flatten_cons, Nat.zero_mul, List.drop_zero]
      have hstep : ∀ i : Nat, ((b.drop ((i + 1) * w)).take w) = (((b.drop w).drop (i * w)).take w) := by
        intro i
        rw [List.drop_drop]
        congr 1
        rw [Nat.succ_mul, Nat.add_comm]
      have hmap : (List.range k).map ((fun i => (b.drop (i * w)).take w) ∘ Nat.succ)
          = (List.range k).map (fun i => ((b.drop w).drop (i * w)).take w) := by
        apply List.map_congr_left
        intro i _
        simpa using hstep i
      have hsm : (k + 1) * w = k * w + w := Nat.succ_mul k w
      rw [hmap, ih (b.drop w) (by simp only [List.length_drop]; omega)]
      rw [← List.take_add]
      congr 1
      omega

theorem encode_cons (row : List Node) (rows : List (List Node)) :
    encode (row :: rows) = (row.map Node.value).flatten ++ encode rows := by
  simp [encode]

/-- The re-derived bitstring of a grid only depends on the per-row value
sequences. -/
theorem encode_map_vals : ∀ (l : List Nat) (g1 g2 : Nat → List Node),
    (∀ r ∈ l, (g1 r).map Node.value = (g2 r).map Node.value) →
    encode (l.map g1) = encode (l.map g2) := by
  intro l
  induction l with
  | nil => intro g1 g2 _; rfl
  | cons r l ih =>
      intro g1 g2 hvals
      simp only [List.map_cons]
      rw [encode_cons, encode_cons, hvals r (List.mem_cons_self r l),
        ih g1 g2 (fun r' hr' => hvals r' (List.mem_cons_of_mem r hr'))]

/-- Decode/encode round trip, row-structured form. -/
theorem encode_decodeGrid (m w : Nat) : ∀ (n : Nat) (b : List Bool),
    b.length = n * (m * w) → encode (decodeGrid b m n w) = b := by
  intro n
  induction n with
  | zero =>
      intro b hb
      have : b = [] := List.length_eq_zero.1 (by omega)
      subst this
      rfl
  | succ n ih =>
      intro b hb
      have hsm : (n + 1) * (m * w) = n * (m * w) + m * w := Nat.succ_mul n (m * w)
      rw [decodeGrid, List.range_succ_eq_map, List.map_cons, encode_cons]
      simp only [List.map_map]
      have hrow0 : ((List.range m).map
          ((fun node => node.value) ∘ (fun c => Node.mk 0 c (chunkAt b m w 0 c)))).flatten
          = b.take (m * w) := by
        have := rowJoin w m b (by omega)
        rw [← this]
        congr 1
        apply List.map_congr_left
        intro c _
        simp [chunkAt]
      have htail : encode ((List.range n).map ((fun r =>
            (List.range m).map (fun c => Node.mk r c (chunkAt b m w r c))) ∘ Nat.succ))
          = encode (decodeGrid (b.drop (m * w)) m n w) := by
        rw [decodeGrid]
        apply encode_map_vals
        intro r _
        simp only [Function.comp_apply, List.map_map]
        apply List.map_congr_left
        intro c _
        simp only [Function.comp_apply]
        show chunkAt b m w (r + 1) c = chunkAt (b.drop (m * w)) m w r c
        rw [chunkAt, chunkAt, List.drop_drop]
        congr 2
        ring
      rw [hrow0, htail, ih (b.drop (m * w)) (by simp only [List.length_drop]; omega)]
      exact List.take_append_drop (m * w) b

/-- C3: for every bitstring of length `m*n*w`, decoding assigns to every
cell exactly the chunk of the original bitstring at that cell's
row-major position, and re-deriving the identifiers from the decoded
grid reproduces the original bitstring. -/
theorem decode_encode_roundtrip (b : List Bool) (m n w : Nat)
    (hlen : b.length = m * n * w) :
    (∀ r c : Nat, r < n → c < m →
        getCell (decodeGrid b m n w) m n (r : Int) (c : Int) =
          some (Node.mk r c ((b.drop ((r * m + c) * w)).take w))) ∧
      encode (decodeGrid b m n w) = b := by
  constructor
  · intro r c hr hc
    exact getCell_decodeGrid b m n w r c hr hc
  · exact encode_decodeGrid m w n b (by rw [hlen]; ring)

/-- Witness for C3 at `b = "1001"`, `m = 2`, `n = 1`, `w = 2`. -/
theorem decode_encode_roundtrip_witness :
    ([true, false, false, true] : List Bool).length = 2 * 1 * 2 ∧
      ((∀ r c : Nat, r < 1 → c < 2 →
          getCell (decodeGrid [true, false, false, true] 2 1 2) 2 1 (r : Int) (c : Int) =
            some (Node.mk r c (([true, false, false, true] : List Bool).drop
              ((r * 2 + c) * 2) |>.take 2))) ∧
        encode (decodeGrid [true, false, false, true] 2 1 2) = [true, false, false, true]) :=
  ⟨by decide, decode_encode_roundtrip [true, false, false, true] 2 1 2 (by decide)⟩

/-- C10: on a population built by `set_population`, for every valid
candidate index and every coordinate pair, `get_node` is total: it
returns `None` exactly when `row < 0`, `col < 0`, `row >= n` or
`col >= m`, and otherwise returns the node stored at that row and
column of that candidate's grid. -/
theorem get_node_spec (bitstrings : List (List Bool)) (m n w : Nat) (idx : Nat)
    (hidx : idx < bitstrings.length) (row col : Int) :
    (get_node (set_population bitstrings m n w) m n idx row col = none ↔
      row < 0 ∨ col < 0 ∨ (n : Int) ≤ row ∨ (m : Int) ≤ col) ∧
      (0 ≤ row → 0 ≤ col → row < (n : Int) → col < (m : Int) →
        get_node (set_population bitstrings m n w) m n idx row col =
          some (Node.mk row.toNat col.toNat (chunkAt bitstrings[idx] m w row.toNat col.toNat))) := by
  have hsome : 0 ≤ row → 0 ≤ col → row < (n : Int) → col < (m : Int) →
      get_node (set_population bitstrings m n w) m n idx row col =
        some (Node.mk row.toNat col.toNat (chunkAt bitstrings[idx] m w row.toNat col.toNat)) := by
    intro h1 h2 h3 h4
    rw [get_node, if_pos ⟨h1, h2, h3, h4⟩]
    have hr : row.toNat < n := by omega
    have hc : col.toNat < m := by omega
    simp [set_population, decodeGrid, List.getElem?_map, List.getElem?_range, hidx, hr, hc]
  constructor
  · constructor
    · intro hnone
      by_contra hbounds
      push_neg at hbounds
      obtain ⟨h1, h2, h3, h4⟩ := hbounds
      rw [hsome (by omega) (by omega) h3 h4] at hnone
      exact Option.noConfusion hnone
    · intro hout
      rw [get_node, if_neg]
      intro ⟨h1, h2, h3, h4⟩
      omega
  · exact hsome

/-- Witness for C10 at one stored bitstring `"10"` on a `2 x 1` board,
probing the in-bounds cell `(0, 1)`. -/
theorem get_node_spec_witness :
    (0 : Nat) < ([[true, false]] : List (List Bool)).length ∧
      ((get_node (set_population [[true, false]] 2 1 1) 2 1 0 0 1 = none ↔
          (0 : Int) < 0 ∨ (1 : Int) < 0 ∨ ((1 : Nat) : Int) ≤ 0 ∨ ((2 : Nat) : Int) ≤ 1) ∧
        ((0 : Int) ≤ 0 → (0 : Int) ≤ 1 → (0 : Int) < ((1 : Nat) : Int) → (1 : Int) < ((2 : Nat) : Int) →
          get_node (set_population [[true, false]] 2 1 1) 2 1 0 0 1 =
            some (Node.mk (0 : Int).toNat (1 : Int).toNat
              (chunkAt ([[true, false]] : List (List Bool))[0] 2 1 (0 : Int).toNat (1 : Int).toNat)))) :=
  ⟨by decide, get_node_spec [[true, false]] 2 1 1 0 (by decide) 0 1⟩

/-- Accumulation monotonicity of the first-encounter dedup fold that
builds `pents`. -/
theorem mem_pentsFold : ∀ (l acc : List (List Bool)) (y : List Bool),
    y ∈ l ∨ y ∈ acc →
    y ∈ l.foldl (fun a x => if x ∈ a then a else a ++ [x]) acc := by
  intro l
  induction l with
  | nil =>
      intro acc y hy
      rcases hy with hy | hy
      · exact absurd hy (List.not_mem_nil y)
      · simpa using hy
  | cons x l ih =>
      intro acc y hy
      simp only [List.foldl_cons]
      by_cases hx : x ∈ acc
      · rw [if_pos hx]
        rcases hy with hy | hy
        · rcases List.mem_cons.1 hy with rfl | hy'
          · exact ih acc y (Or.inr hx)
          · exact ih acc y (Or.inl hy')
        · exact ih acc y (Or.inr hy)
      · rw [if_neg hx]
        rcases hy with hy | hy
        · rcases List.mem_cons.1 hy with rfl | hy'
          · exact ih (acc ++ [y]) y (Or.inr (by simp))
          · exact ih (acc ++ [x]) y (Or.inl hy')
        · exact ih (acc ++ [x]) y (Or.inr (by simp [hy]))

/-- Python `list.index` stays below the list length on members. -/
theorem indexIn_lt_length (v : List Bool) : ∀ l : List (List Bool),
    v ∈ l → indexIn v l < l.length := by
  intro l
  induction l with
  | nil => intro hv; exact absurd hv (List.not_mem_nil v)
  | cons x xs ih =>
      intro hv
      rw [indexIn]
      by_cases hx : x = v
      · rw [if_pos hx]; simp
      · rw [if_neg hx]
        have hv' : v ∈ xs := by
          rcases List.mem_cons.1 hv with rfl | h'
          · exact absurd rfl hx
          · exact h'
        simpa [Nat.succ_lt_succ_iff] using ih hv'

/-- C9 counterexample: a bitstring with nine distinct 4-bit identifier
chunks (`0000`, `0001`, ..., `1000`).  `print_pentomino` does not
degrade gracefully: it computes the glyph lookup index `8` for the ninth
identifier, out of range of the 8-glyph alphabet `self.reps` (a Python
`IndexError`). -/
theorem print_symbol_exhausted_counterexample :
    8 < (pentsOf
      [false, false, false, false, false, false, false, true,
        false, false, true, false, false, false, true, true,
        false, true, false, false, false, true, false, true,
        false, true, true, false, false, true, true, true,
        true, false, false, false] 4).length ∧
      ¬ glyphsInBounds
        [false, false, false, false, false, false, false, true,
          false, false, true, false, false, false, true, true,
          false, true, false, false, false, true, false, true,
          false, true, true, false, false, true, true, true,
          true, false, false, false] 4 := by
  constructor
  · simp [pentsOf, chunksList]
  · simp [glyphsInBounds, glyphIndices, pentsOf, chunksList, indexIn]

/-- C9 (amended): for every bitstring whose number of distinct
identifier chunk values is at most the fixed 8-glyph rendering alphabet,
every lookup into the glyph alphabet stays in bounds; with nine or more
distinct identifiers the lookup index reaches 8 and the rendering
indexes out of range. -/
theorem print_symbols_in_bounds (b : List Bool) (w : Nat)
    (hfew : (pentsOf b w).length ≤ 8) : glyphsInBounds b w := by
  intro i hi
  simp only [glyphIndices, List.mem_map] at hi
  obtain ⟨ch, hch, rfl⟩ := hi
  have hmem : ch ∈ pentsOf b w := mem_pentsFold (chunksList w b) [] ch (Or.inl hch)
  have hlt := indexIn_lt_length ch (pentsOf b w) hmem
  omega

/-- Witness for the amended C9 at `b = "10"`, `w = 1` (two distinct
identifiers). -/
theorem print_symbols_in_bounds_witness :
    (pentsOf [true, false] 1).length ≤ 8 ∧ glyphsInBounds [true, false] 1 :=
  ⟨by simp [pentsOf, chunksList], print_symbols_in_bounds [true, false] 1 (by simp [pentsOf, chunksList])⟩

theorem mem_sameValued (A : Node) (v : List Bool) (o : Option Node) :
    A ∈ sameValued v o ↔ o = some A ∧ A.value = v := by
  cases o with
  | none => simp [sameValued]
  | some x =>
      by_cases hx : x.value = v
      · simp only [sameValued, if_pos hx, List.mem_singleton, Option.some_inj]
        constructor
        · intro h; subst h; exact ⟨rfl, hx⟩
        · intro ⟨h, _⟩; exact h.symm
      · simp only [sameValued, if_neg hx, List.not_mem_nil, false_iff, not_and,
          Option.some_inj]
        intro h; subst h; exact fun hv => hx hv

/-- A successful `getCell` on a decoded grid returns the cell whose
coordinates are the queried ones (in particular, in bounds). -/
theorem getCell_decode_inv (b : List Bool) (m n w : Nat) (rr cc : Int) (x : Node)
    (h : getCell (decodeGrid b m n w) m n rr cc = some x) :
    (x.r : Int) = rr ∧ (x.c : Int) = cc ∧ x.r < n ∧ x.c < m := by
  rw [getCell] at h
  by_cases hcond : 0 ≤ rr ∧ 0 ≤ cc ∧ rr < (n : Int) ∧ cc < (m : Int)
  · obtain ⟨h1, h2, h3, h4⟩ := hcond
    rw [if_pos ⟨h1, h2, h3, h4⟩] at h
    have hr : rr.toNat < n := by omega
    have hc : cc.toNat < m := by omega
    simp [decodeGrid, List.getElem?_map, List.getElem?_range, hr, hc] at h
    have hxr : x.r = rr.toNat := by rw [← h]
    have hxc : x.c = cc.toNat := by rw [← h]
    refine ⟨by omega, by omega, by omega, by omega⟩
  · rw [if_neg hcond] at h
    exact absurd h (by simp)

/-- For a cell `A` of a decoded grid, `getCell` finds `A` exactly at
`A`'s own coordinates. -/
theorem getCell_decode_iff (b : List Bool) (m n w : Nat) (rA cA : Nat) (A : Node)
    (hA : getCell (decodeGrid b m n w) m n (rA : Int) (cA : Int) = some A)
    (rr cc : Int) :
    (getCell (decodeGrid b m n w) m n rr cc = some A ↔ rr = (rA : Int) ∧ cc = (cA : Int)) := by
  have hAinv := getCell_decode_inv b m n w (rA : Int) (cA : Int) A hA
  constructor
  · intro h
    have hinv := getCell_decode_inv b m n w rr cc A h
    refine ⟨by omega, by omega⟩
  · intro ⟨h1, h2⟩
    rw [h1, h2]
    exact hA

/-- Membership in the neighbour list of the cell at `(r, c)` of a
decoded grid: one of the four directional probes found the node, and the
values agree. -/
theorem mem_nbrs_decode (b : List Bool) (m n w : Nat) (r c : Nat) (A B : Node)
    (hB : getCell (decodeGrid b m n w) m n (r : Int) (c : Int) = some B) :
    (A ∈ nbrs (decodeGrid b m n w) m n r c ↔
      (getCell (decodeGrid b m n w) m n ((r : Int) - 1) (c : Int) = some A ∨
        getCell (decodeGrid b m n w) m n ((r : Int) + 1) (c : Int) = some A ∨
        getCell (decodeGrid b m n w) m n (r : Int) ((c : Int) - 1) = some A ∨
        getCell (decodeGrid b m n w) m n (r : Int) ((c : Int) + 1) = some A) ∧
        A.value = B.value) := by
  rw [nbrs.eq_def, hB]
  simp only [List.mem_append, mem_sameValued]
  tauto

/-- C4: in every decoded grid the linked relation is symmetric, and two
cells are linked exactly when they are 4-adjacent and carry the same
identifier value. -/
theorem adjacency_symm (b : List Bool) (m n w : Nat) (rA cA rB cB : Nat)
    (A B : Node)
    (hA : getCell (decodeGrid b m n w) m n (rA : Int) (cA : Int) = some A)
    (hB : getCell (decodeGrid b m n w) m n (rB : Int) (cB : Int) = some B) :
    (A ∈ nbrs (decodeGrid b m n w) m n rB cB ↔
      B ∈ nbrs (decodeGrid b m n w) m n rA cA) ∧
      (A ∈ nbrs (decodeGrid b m n w) m n rB cB ↔ adjacent A B ∧ A.value = B.value) := by
  have hAinv := getCell_decode_inv b m n w (rA : Int) (cA : Int) A hA
  have hBinv := getCell_decode_inv b m n w (rB : Int) (cB : Int) B hB
  have hcharA : A ∈ nbrs (decodeGrid b m n w) m n rB cB ↔
      adjacent A B ∧ A.value = B.value := by
    rw [mem_nbrs_decode b m n w rB cB A B hB]
    rw [getCell_decode_iff b m n w rA cA A hA ((rB : Int) - 1) (cB : Int),
      getCell_decode_iff b m n w rA cA A hA ((rB : Int) + 1) (cB : Int),
      getCell_decode_iff b m n w rA cA A hA (rB : Int) ((cB : Int) - 1),
      getCell_decode_iff b m n w rA cA A hA (rB : Int) ((cB : Int) + 1)]
    unfold adjacent
    constructor
    · intro ⟨hcoord, hval⟩
      refine ⟨?_, hval⟩
      omega
    · intro ⟨hadj, hval⟩
      refine ⟨?_, hval⟩
      omega
  have hcharB : B ∈ nbrs (decodeGrid b m n w) m n rA cA ↔
      adjacent B A ∧ B.value = A.value := by
    rw [mem_nbrs_decode b m n w rA cA B A hA]
    rw [getCell_decode_iff b m n w rB cB B hB ((rA : Int) - 1) (cA : Int),
      getCell_decode_iff b m n w rB cB B hB ((rA : Int) + 1) (cA : Int),
      getCell_decode_iff b m n w rB cB B hB (rA : Int) ((cA : Int) - 1),
      getCell_decode_iff b m n w rB cB B hB (rA : Int) ((cA : Int) + 1)]
    unfold adjacent
    constructor
    · intro ⟨hcoord, hval⟩
      refine ⟨?_, hval⟩
      omega
    · intro ⟨hadj, hval⟩
      refine ⟨?_, hval⟩
      omega
  refine ⟨?_, hcharA⟩
  rw [hcharA, hcharB]
  unfold adjacent
  constructor
  · intro ⟨hadj, hval⟩
    exact ⟨by omega, hval.symm⟩
  · intro ⟨hadj, hval⟩
    exact ⟨by omega, hval.symm⟩

/-- Witness for C4 on the `2 x 1` board decoded from `"11"` (`w = 1`),
with `A` the cell at `(0, 0)` and `B` the cell at `(0, 1)`. -/
theorem adjacency_symm_witness :
    getCell (decodeGrid [true, true] 2 1 1) 2 1 ((0 : Nat) : Int) ((0 : Nat) : Int) =
        some (Node.mk 0 0 [true]) ∧
      getCell (decodeGrid [true, true] 2 1 1) 2 1 ((0 : Nat) : Int) ((1 : Nat) : Int) =
        some (Node.mk 0 1 [true]) ∧
      ((Node.mk 0 0 [true] ∈ nbrs (decodeGrid [true, true] 2 1 1) 2 1 0 1 ↔
        Node.mk 0 1 [true] ∈ nbrs (decodeGrid [true, true] 2 1 1) 2 1 0 0) ∧
        (Node.mk 0 0 [true] ∈ nbrs (decodeGrid [true, true] 2 1 1) 2 1 0 1 ↔
          adjacent (Node.mk 0 0 [true]) (Node.mk 0 1 [true]) ∧
            (Node.mk 0 0 [true]).value = (Node.mk 0 1 [true]).value)) :=
  ⟨by decide, by decide,
    adjacency_symm [true, true] 2 1 1 0 0 0 1 (Node.mk 0 0 [true]) (Node.mk 0 1 [true])
      (by decide) (by decide)⟩

/-- A cell found anywhere by `getCell` on a decoded grid is also found
at its own coordinates. -/
theorem getCell_self (b : List Bool) (m n w : Nat) (rr cc : Int) (x : Node)
    (h : getCell (decodeGrid b m n w) m n rr cc = some x) :
    getCell (decodeGrid b m n w) m n (x.r : Int) (x.c : Int) = some x := by
  have hinv := getCell_decode_inv b m n w rr cc x h
  rw [hinv.1, hinv.2.1]
  exact h

/-- Every member of a neighbour list of a decoded grid is a cell of the
grid, found at its own coordinates. -/
theorem mem_nbrs_cell (b : List Bool) (m n w : Nat) (r c : Nat) (x : Node)
    (hx : x ∈ nbrs (decodeGrid b m n w) m n r c) :
    getCell (decodeGrid b m n w) m n (x.r : Int) (x.c : Int) = some x := by
  rcases hcc : getCell (decodeGrid b m n w) m n (r : Int) (c : Int) with _ | node
  · rw [nbrs.eq_def, hcc] at hx
    exact absurd hx (List.not_mem_nil x)
  · rw [mem_nbrs_decode b m n w r c x node hcc] at hx
    rcases hx.1 with h | h | h | h <;> exact getCell_self b m n w _ _ x h

/-- A duplicate-free list of cells of a decoded `m x n` grid has at most
`m*n` elements. -/
theorem visited_length_le (b : List Bool) (m n w : Nat) (visited : List Node)
    (hnd : visited.Nodup)
    (hcells : ∀ v ∈ visited,
      getCell (decodeGrid b m n w) m n (v.r : Int) (v.c : Int) = some v) :
    visited.length ≤ m * n := by
  classical
  have hinj : ∀ x ∈ visited, ∀ y ∈ visited,
      (fun v : Node => (v.r, v.c)) x = (fun v : Node => (v.r, v.c)) y → x = y := by
    intro x hx y hy hxy
    simp only [Prod.mk.injEq] at hxy
    have h1 := hcells x hx
    have h2 := hcells y hy
    rw [hxy.1, hxy.2] at h1
    exact Option.some_inj.1 (h1.symm.trans h2)
  have hmapnd : (visited.map (fun v : Node => (v.r, v.c))).Nodup :=
    List.Nodup.map_on hinj hnd
  have hsub : (visited.map (fun v : Node => (v.r, v.c))).toFinset ⊆
      (Finset.range n) ×ˢ (Finset.range m) := by
    intro p hp
    simp only [List.mem_toFinset, List.mem_map] at hp
    obtain ⟨v, hv, rfl⟩ := hp
    have hb := getCell_decode_inv b m n w (v.r : Int) (v.c : Int) v (hcells v hv)
    simp only [Finset.mem_product, Finset.mem_range]
    exact ⟨hb.2.2.1, hb.2.2.2⟩
  calc visited.length
      = (visited.map (fun v : Node => (v.r, v.c))).toFinset.card := by
        rw [List.toFinset_card_of_nodup hmapnd, List.length_map]
    _ ≤ ((Finset.range n) ×ˢ (Finset.range m)).card := Finset.card_le_card hsub
    _ = n * m := by rw [Finset.card_product, Finset.card_range, Finset.card_range]
    _ ≤ m * n := Nat.le_of_eq (Nat.mul_comm n m)

/-- A visited set that contains the start and is closed under the
neighbour relation contains every reachable node. -/
theorem reachable_subset_visited (b : List Bool) (m n w : Nat) (start : Node)
    (visited : List Node)
    (hclosed : ∀ v ∈ visited, ∀ y ∈ nbrs (decodeGrid b m n w) m n v.r v.c, y ∈ visited)
    (hstart : start ∈ visited) :
    ∀ x, Reachable (decodeGrid b m n w) m n start x → x ∈ visited := by
  intro x hx
  induction hx with
  | refl => exact hstart
  | step hreach hmem ih => exact hclosed _ ih _ hmem

/-- At loop exit the visited list is exactly the reachable set. -/
theorem bfsAux_final (b : List Bool) (m n w : Nat) (start : Node) (visited : List Node)
    (hclosed : ∀ v ∈ visited, ∀ y ∈ nbrs (decodeGrid b m n w) m n v.r v.c, y ∈ visited)
    (hreach : ∀ v ∈ visited, Reachable (decodeGrid b m n w) m n start v)
    (hstart : start ∈ visited) :
    ∀ x, x ∈ visited ↔ Reachable (decodeGrid b m n w) m n start x := by
  intro x
  exact ⟨hreach x, reachable_subset_visited b m n w start visited hclosed hstart x⟩

/-- Characterisation of one pass of the neighbour-enqueueing loop: it
appends (to both the visited list and the queue) the sub-list `t` of
neighbours not yet visited, and advances the counter by `t.length`. -/
theorem enqueueNew_spec : ∀ (xs visited queue : List Node) (count : Nat),
    ∃ t : List Node,
      enqueueNew visited queue count xs = (visited ++ t, queue ++ t, count + t.length) ∧
        (∀ y ∈ t, y ∈ xs ∧ y ∉ visited) ∧
        (∀ y ∈ xs, y ∈ visited ++ t) ∧
        (visited.Nodup → (visited ++ t).Nodup) := by
  intro xs
  induction xs with
  | nil =>
      intro visited queue count
      exact ⟨[], by simp [enqueueNew], by simp, by simp, fun h => by simpa using h⟩
  | cons x xs ih =>
      intro visited queue count
      by_cases hx : x ∈ visited
      · obtain ⟨t, heq, ht, hxs, hndf⟩ := ih visited queue count
        refine ⟨t, ?_, ?_, ?_, hndf⟩
        · rw [enqueueNew, if_pos hx]
          exact heq
        · intro y hy
          obtain ⟨h1, h2⟩ := ht y hy
          exact ⟨List.mem_cons_of_mem x h1, h2⟩
        · intro y hy
          rcases List.mem_cons.1 hy with rfl | hy'
          · exact List.mem_append.2 (Or.inl hx)
          · exact hxs y hy'
      · obtain ⟨t, heq, ht, hxs, hndf⟩ := ih (visited ++ [x]) (queue ++ [x]) (count + 1)
        refine ⟨x :: t, ?_, ?_, ?_, ?_⟩
        · rw [enqueueNew, if_neg hx, heq]
          simp only [Prod.mk.injEq, List.append_assoc, List.singleton_append,
            List.length_cons, true_and]
          omega
        · intro y hy
          rcases List.mem_cons.1 hy with rfl | hy'
          · exact ⟨List.mem_cons_self y xs, hx⟩
          · obtain ⟨h1, h2⟩ := ht y hy'
            exact ⟨List.mem_cons_of_mem x h1,
              fun hv => h2 (List.mem_append.2 (Or.inl hv))⟩
        · intro y hy
          rcases List.mem_cons.1 hy with rfl | hy'
          · exact List.mem_append.2 (Or.inr (List.mem_cons_self y t))
          · simpa [List.append_assoc] using hxs y hy'
        · intro hvnd
          have hnd1 : (visited ++ [x]).Nodup := by
            rw [List.nodup_append]
            refine ⟨hvnd, List.nodup_singleton x, ?_⟩
            intro a ha hax
            rw [List.mem_singleton] at hax
            subst hax
            exact hx ha
          simpa [List.append_assoc] using hndf hnd1

/-- Correctness of the fuelled BFS loop: under the loop invariants and
with fuel at least `queue.length + 2*(m*n - visited.length)`, it returns
the length of a duplicate-free list holding exactly the reachable
cells. -/
theorem bfsAux_correct (b : List Bool) (m n w : Nat) (start : Node) :
    ∀ (fuel : Nat) (queue visited : List Node),
      visited.Nodup → queue.Nodup →
      (∀ y ∈ queue, y ∈ visited) →
      (∀ v ∈ visited, v ∉ queue →
        ∀ y ∈ nbrs (decodeGrid b m n w) m n v.r v.c, y ∈ visited) →
      (∀ v ∈ visited, Reachable (decodeGrid b m n w) m n start v) →
      start ∈ visited →
      (∀ v ∈ visited, getCell (decodeGrid b m n w) m n (v.r : Int) (v.c : Int) = some v) →
      queue.length + 2 * (m * n - visited.length) ≤ fuel →
      ∃ V : List Node,
        bfsAux (decodeGrid b m n w) m n fuel queue visited visited.length = V.length ∧
          V.Nodup ∧ (∀ x, x ∈ V ↔ Reachable (decodeGrid b m n w) m n start x) ∧
          (∀ v ∈ V, getCell (decodeGrid b m n w) m n (v.r : Int) (v.c : Int) = some v) := by
  intro fuel
  induction fuel with
  | zero =>
      intro queue visited hnd hqnd hqv hclosed hreach hstart hcells hfuel
      have hq : queue = [] := by
        cases queue with
        | nil => rfl
        | cons a l =>
            exfalso
            simp only [List.length_cons] at hfuel
            omega
      subst hq
      exact ⟨visited, rfl, hnd,
        bfsAux_final b m n w start visited
          (fun v hv => hclosed v hv (List.not_mem_nil v)) hreach hstart, hcells⟩
  | succ fuel ih =>
      intro queue visited hnd hqnd hqv hclosed hreach hstart hcells hfuel
      cases queue with
      | nil =>
          exact ⟨visited, rfl, hnd,
            bfsAux_final b m n w start visited
              (fun v hv => hclosed v hv (List.not_mem_nil v)) hreach hstart, hcells⟩
      | cons s rest =>
          have hs : s ∈ visited := hqv s (List.mem_cons_self s rest)
          obtain ⟨t, heq, ht, hns, hndf⟩ :=
            enqueueNew_spec (nbrs (decodeGrid b m n w) m n s.r s.c) visited rest
              visited.length
          have hnd' : (visited ++ t).Nodup := hndf hnd
          have hcells' : ∀ v ∈ visited ++ t,
              getCell (decodeGrid b m n w) m n (v.r : Int) (v.c : Int) = some v := by
            intro v hv
            rcases List.mem_append.1 hv with hv | hv
            · exact hcells v hv
            · exact mem_nbrs_cell b m n w s.r s.c v (ht v hv).1
          have hbound : (visited ++ t).length ≤ m * n :=
            visited_length_le b m n w (visited ++ t) hnd' hcells'
          have hrest_nd : rest.Nodup := (List.nodup_cons.1 hqnd).2
          have hvdisj : ∀ a ∈ visited, a ∉ t :=
            fun a ha hat => (ht a hat).2 ha
          have hq'nd : (rest ++ t).Nodup := by
            rw [List.nodup_append]
            refine ⟨hrest_nd, (List.nodup_append.1 hnd').2.1, ?_⟩
            intro a ha hat
            exact hvdisj a (hqv a (List.mem_cons_of_mem s ha)) hat
          have hqv' : ∀ y ∈ rest ++ t, y ∈ visited ++ t := by
            intro y hy
            rcases List.mem_append.1 hy with hy | hy
            · exact List.mem_append.2 (Or.inl (hqv y (List.mem_cons_of_mem s hy)))
            · exact List.mem_append.2 (Or.inr hy)
          have hclosed' : ∀ v ∈ visited ++ t, v ∉ rest ++ t →
              ∀ y ∈ nbrs (decodeGrid b m n w) m n v.r v.c, y ∈ visited ++ t := by
            intro v hv hvq y hy
            rcases List.mem_append.1 hv with hv | hv
            · by_cases hvs : v = s
              · subst hvs
                exact hns y hy
              · have hvrest : v ∉ rest := fun hr => hvq (List.mem_append.2 (Or.inl hr))
                have hvqueue : v ∉ s :: rest := by
                  intro hvm
                  rcases List.mem_cons.1 hvm with rfl | hvm'
                  · exact hvs rfl
                  · exact hvrest hvm'
                exact List.mem_append.2 (Or.inl (hclosed v hv hvqueue y hy))
            · exact absurd (List.mem_append.2 (Or.inr hv)) hvq
          have hreach' : ∀ v ∈ visited ++ t,
              Reachable (decodeGrid b m n w) m n start v := by
            intro v hv
            rcases List.mem_append.1 hv with hv | hv
            · exact hreach v hv
            · exact Reachable.step (hreach s hs) (ht v hv).1
          have hstart' : start ∈ visited ++ t := List.mem_append.2 (Or.inl hstart)
          have hfuel' : (rest ++ t).length + 2 * (m * n - (visited ++ t).length) ≤ fuel := by
            simp only [List.length_append, List.length_cons] at hfuel hbound ⊢
            omega
          obtain ⟨V, hV, hVnd, hViff, hVcells⟩ :=
            ih (rest ++ t) (visited ++ t) hnd' hq'nd hqv' hclosed' hreach' hstart'
              hcells' hfuel'
          refine ⟨V, ?_, hVnd, hViff, hVcells⟩
          rw [List.length_append] at hV
          calc bfsAux (decodeGrid b m n w) m n (fuel + 1) (s :: rest) visited visited.length
              = bfsAux (decodeGrid b m n w) m n fuel (rest ++ t) (visited ++ t)
                  (visited.length + t.length) := by
                simp only [bfsAux, heq]
            _ = V.length := hV

/-- C5: for every decoded grid and every cell in it, `bfs` returns the
number of distinct cells reachable from the start cell through the
linked relation (counting the start cell itself), and this count is at
least `1` and at most `m*n`. -/
theorem bfs_spec (b : List Bool) (m n w : Nat) (r c : Nat) (start : Node)
    (hstart : getCell (decodeGrid b m n w) m n (r : Int) (c : Int) = some start) :
    bfs (decodeGrid b m n w) m n start =
        Set.ncard {x | Reachable (decodeGrid b m n w) m n start x} ∧
      1 ≤ bfs (decodeGrid b m n w) m n start ∧
      bfs (decodeGrid b m n w) m n start ≤ m * n := by
  classical
  have hcell : getCell (decodeGrid b m n w) m n (start.r : Int) (start.c : Int) = some start :=
    getCell_self b m n w (r : Int) (c : Int) start hstart
  have hmn : 1 ≤ m * n := by
    have hb := getCell_decode_inv b m n w (r : Int) (c : Int) start hstart
    have h1 : start.r < n := hb.2.2.1
    have h2 : start.c < m := hb.2.2.2
    have : 0 < n := by omega
    have : 0 < m := by omega
    exact Nat.one_le_iff_ne_zero.2 (by positivity)
  obtain ⟨V, hV, hVnd, hViff, hVcells⟩ :=
    bfsAux_correct b m n w start (2 * (m * n) + 1) [start] [start]
      (List.nodup_singleton start) (List.nodup_singleton start)
      (fun y hy => hy)
      (fun v hv hnv => absurd hv hnv)
      (fun v hv => by rw [List.mem_singleton] at hv; subst hv; exact Reachable.refl)
      (List.mem_singleton.2 rfl)
      (fun v hv => by rw [List.mem_singleton] at hv; subst hv; exact hcell)
      (by simp only [List.length_singleton]; omega)
  have hbfs : bfs (decodeGrid b m n w) m n start = V.length := by
    rw [bfs]
    simpa using hV
  have hncard : Set.ncard {x | Reachable (decodeGrid b m n w) m n start x} = V.length := by
    have hset : {x | Reachable (decodeGrid b m n w) m n start x} = ↑V.toFinset := by
      ext x
      simp only [Set.mem_setOf_eq, Finset.coe_sort_coe, List.coe_toFinset, Set.mem_setOf_eq,
        List.mem_toFinset]
      exact (hViff x).symm
    rw [hset, Set.ncard_coe_Finset, List.toFinset_card_of_nodup hVnd]
  have hstartV : start ∈ V := (hViff start).2 Reachable.refl
  have hVpos : 1 ≤ V.length := by
    cases V with
    | nil => exact absurd hstartV (List.not_mem_nil start)
    | cons a l => simp
  have hVle : V.length ≤ m * n := visited_length_le b m n w V hVnd hVcells
  exact ⟨by rw [hbfs, hncard], by rw [hbfs]; exact hVpos, by rw [hbfs]; exact hVle⟩

/-- Witness for C5 on the `2 x 1` board decoded from `"11"`, starting at
the cell `(0, 0)`. -/
theorem bfs_spec_witness :
    getCell (decodeGrid [true, true] 2 1 1) 2 1 ((0 : Nat) : Int) ((0 : Nat) : Int) =
        some (Node.mk 0 0 [true]) ∧
      (bfs (decodeGrid [true, true] 2 1 1) 2 1 (Node.mk 0 0 [true]) =
          Set.ncard {x | Reachable (decodeGrid [true, true] 2 1 1) 2 1 (Node.mk 0 0 [true]) x} ∧
        1 ≤ bfs (decodeGrid [true, true] 2 1 1) 2 1 (Node.mk 0 0 [true]) ∧
        bfs (decodeGrid [true, true] 2 1 1) 2 1 (Node.mk 0 0 [true]) ≤ 2 * 1) :=
  ⟨by decide, bfs_spec [true, true] 2 1 1 0 0 (Node.mk 0 0 [true]) (by decide)⟩

set_option maxRecDepth 4000

/-- C2: on the `m=2`, `n=5` board with bit-width `w=1`, the candidate
bitstring `"1111100000"` yields, for each of the two identifiers, a kept
connected count of `5` (so `bestDeviation = 0`) and a total count of
`5`, hence `connectivityTerm = 1`, `countTerm = 1` and
`fitness = 1 + penalty` for every penalty weight `p`. -/
theorem fitness_scenario (p : ℚ) :
    (∃ c1, dictGet (countsFor (decodeGrid
        [true, true, true, true, true, false, false, false, false, false] 2 5 1) 2 5).1
        [true] = some c1 ∧ ((c1 : ℤ) - 5).natAbs = 0) ∧
      (∃ c0, dictGet (countsFor (decodeGrid
        [true, true, true, true, true, false, false, false, false, false] 2 5 1) 2 5).1
        [false] = some c0 ∧ ((c0 : ℤ) - 5).natAbs = 0) ∧
      dictGet (countsFor (decodeGrid
        [true, true, true, true, true, false, false, false, false, false] 2 5 1) 2 5).2
        [true] = some 5 ∧
      dictGet (countsFor (decodeGrid
        [true, true, true, true, true, false, false, false, false, false] 2 5 1) 2 5).2
        [false] = some 5 ∧
      connTerm (decodeGrid
        [true, true, true, true, true, false, false, false, false, false] 2 5 1) 2 5 = 1 ∧
      cntTerm (decodeGrid
        [true, true, true, true, true, false, false, false, false, false] 2 5 1) 2 5 = 1 ∧
      fitnessOne (decodeGrid
        [true, true, true, true, true, false, false, false, false, false] 2 5 1) 2 5 p
        = 1 + p := by
  have hcc : (countsFor (decodeGrid
      [true, true, true, true, true, false, false, false, false, false] 2 5 1) 2 5).1
      = [([true], 5), ([false], 5)] := by decide
  have htc : (countsFor (decodeGrid
      [true, true, true, true, true, false, false, false, false, false] 2 5 1) 2 5).2
      = [([true], 5), ([false], 5)] := by decide
  refine ⟨⟨5, ?_, by decide⟩, ⟨5, ?_, by decide⟩, ?_, ?_, ?_, ?_, ?_⟩
  · rw [hcc]; decide
  · rw [hcc]; decide
  · rw [htc]; decide
  · rw [htc]; decide
  · rw [connTerm, hcc]; norm_num [term]
  · rw [cntTerm, htc]; norm_num [term]
  · rw [fitnessOne, connTerm, cntTerm, hcc, htc]
    norm_num [term]

end Pent
